import Mathlib

/-!
Shallow embedding of the `german-str` crate (`src/lib.rs`): a 16-byte
small-string type with a 4-byte cached head, an inline/heap tagged union
selected by the length field, and a 1-bit ownership tag stolen from the
heap pointer.

Byte strings are modelled as `List Nat` (one entry per byte); the global
allocator is modelled as an explicit heap: a counter of the next fresh
address plus an association list from addresses to buffer contents.
Machine-integer casts (`src.len() as u32`) are modelled with `% 2 ^ 32`.
-/

set_option autoImplicit false

namespace GermanStrModel

/-- Byte strings: one natural number per byte. -/
abbrev Bytes := List Nat

/-- Models `MAX_INLINE_BYTES`: the longest string stored without a heap allocation. -/
def MAX_INLINE_BYTES : Nat := 12

/-- Models `MAX_LEN = 2_usize.pow(32)`. -/
def MAX_LEN : Nat := 2 ^ 32

/-- Models `OWNED_PTR`: stolen-bit value for an owned heap buffer. -/
def OWNED_PTR : Nat := 0

/-- Models `SHARED_PTR = usize::MAX`: stolen-bit value for a shared heap buffer. -/
def SHARED_PTR : Nat := 2 ^ 64 - 1

/-- Models `ointers::NotNull::steal` with one stolen bit: only the low bit
of the requested tag value is actually stored. -/
def stealBit (v : Nat) : Nat := v % 2

/-- Models the union `Last8`. In the Rust code the active arm is implicit
(chosen by the `len` field); the model keeps it explicit. -/
inductive Last8 where
  | ptr (addr : Nat) (stolen : Nat) : Last8
  | buf (bytes : Bytes) : Last8
deriving DecidableEq, Repr

/-- Bytes of the inline arm of the union; junk (`[]`) for the ptr arm,
which the Rust code would only reach through undefined behaviour. -/
def Last8.getBuf : Last8 → Bytes
  | .buf b => b
  | .ptr _ _ => []

/-- Models the struct `GermanStr`. The `prefix` field is called `pfx`
(`prefix` is a Lean keyword). -/
structure GermanStr where
  len : Nat
  pfx : Bytes
  last8 : Last8
deriving DecidableEq, Repr

/-- Models `InitError`. -/
inductive InitError where
  | TooLong
deriving DecidableEq, Repr

/-- Model of the global allocator: `next` is the next fresh address,
`live` maps allocated addresses to buffer contents. -/
structure Heap where
  next : Nat
  live : List (Nat × Bytes)
deriving DecidableEq, Repr

/-- Allocation always succeeds in the model, at a fresh address. -/
def Heap.alloc (h : Heap) (contents : Bytes) : Heap × Nat :=
  ({ next := h.next + 1, live := (h.next, contents) :: h.live }, h.next)

/-- Contents of the buffer at `addr`, if allocated. -/
def Heap.get (h : Heap) (addr : Nat) : Option Bytes :=
  (h.live.find? (fun p => p.1 == addr)).map (fun p => p.2)

/-- Models `alloc::alloc::dealloc` at an address. -/
def Heap.dealloc (h : Heap) (addr : Nat) : Heap :=
  { h with live := h.live.filter (fun p => p.1 != addr) }

/-- Empty heap. -/
def Heap.empty : Heap := { next := 0, live := [] }

/-- Models `str_prefix`: the first 4 bytes of a string, zero-padded to 4. -/
def strPfx (src : Bytes) : Bytes :=
  src.take 4 ++ List.replicate (4 - src.length) 0

/-- Models `str_suffix`: every byte of a string, skipping the first 4. -/
def strSuffix (src : Bytes) : Bytes := src.drop 4

/-- Models the inline buffer written by the second loop of
`GermanStr::new_inline`: bytes `4..min(len,12)` of the source, zero-padded
to 8 bytes. -/
def inlineBuf (src : Bytes) : Bytes :=
  (src.drop 4).take 8 ++ List.replicate (8 - (src.length - 4)) 0

/-- Models `GermanStr::new_inline`. The Rust code asserts
`src.len() <= MAX_INLINE_BYTES`; callers must respect that bound. -/
def GermanStr.new_inline (src : Bytes) : GermanStr :=
  { len := src.length % 2 ^ 32
    pfx := strPfx src
    last8 := .buf (inlineBuf src) }

/-- Models `GermanStr::new`. The extra `2 ^ 63 - 1` test models the
`Layout::array::<u8>` failure branch (mapped to `TooLong` by the source). -/
def GermanStr.new (h : Heap) (src : Bytes) : Except InitError (GermanStr × Heap) :=
  if MAX_LEN < src.length then .error .TooLong
  else if src.length ≤ MAX_INLINE_BYTES then .ok (GermanStr.new_inline src, h)
  else if 2 ^ 63 - 1 < src.length then .error .TooLong
  else
    let p := h.alloc src
    .ok ({ len := src.length % 2 ^ 32
           pfx := strPfx src
           last8 := .ptr p.2 OWNED_PTR }, p.1)

/-- Models `GermanStr::is_heap_allocated`. -/
def GermanStr.is_heap_allocated (g : GermanStr) : Bool :=
  decide (MAX_INLINE_BYTES < g.len)

/-- Models `GermanStr::is_inlined`. -/
def GermanStr.is_inlined (g : GermanStr) : Bool :=
  !g.is_heap_allocated

/-- Models `GermanStr::heap_ointer`: the tagged pointer (address, stolen bit)
when the value is not inlined. Reading the inline arm as a pointer is
undefined behaviour in the source; the model returns `none` there. -/
def GermanStr.heap_ointer (g : GermanStr) : Option (Nat × Nat) :=
  if MAX_INLINE_BYTES < g.len then
    match g.last8 with
    | .ptr a t => some (a, t)
    | .buf _ => none
  else none

/-- Models `GermanStr::heap_ptr`: the address with the stolen bit cleared. -/
def GermanStr.heap_ptr (g : GermanStr) : Option Nat :=
  g.heap_ointer.map (fun p => p.1)

/-- Models `GermanStr::has_shared_buffer`. -/
def GermanStr.has_shared_buffer (g : GermanStr) : Bool :=
  match g.heap_ointer with
  | some p => p.2 != OWNED_PTR
  | none => false

/-- Models `GermanStr::leaky_shared_clone`. The first component is the
updated `self`, the second the returned clone. -/
def GermanStr.leaky_shared_clone (g : GermanStr) : GermanStr × GermanStr :=
  let g' :=
    if g.is_heap_allocated then
      match g.last8 with
      | .ptr a _ => { g with last8 := .ptr a (stealBit SHARED_PTR) }
      | .buf b => { g with last8 := .buf b }
    else g
  (g', { len := g'.len, pfx := g'.pfx, last8 := g'.last8 })

/-- Models `impl Drop for GermanStr`: returns the heap after the drop. -/
def GermanStr.drop (h : Heap) (g : GermanStr) : Heap :=
  match g.heap_ptr with
  | some p => if !g.has_shared_buffer then h.dealloc p else h
  | none => h

/-- Models `GermanStr::free`: re-tags the pointer as owned, then drops.
The source requires the caller to guarantee `self` is heap-allocated;
on the inline arm the model leaves the union untouched. -/
def GermanStr.free (h : Heap) (g : GermanStr) : Heap :=
  let g' :=
    match g.last8 with
    | .ptr a _ => { g with last8 := Last8.ptr a (stealBit OWNED_PTR) }
    | .buf b => { g with last8 := Last8.buf b }
  GermanStr.drop h g'

/-- Models `GermanStr::suffix_bytes_slice`: bytes `4..len` of the payload. -/
def GermanStr.suffix_bytes_slice (h : Heap) (g : GermanStr) : Bytes :=
  let suffix_len := g.len - 4
  if MAX_INLINE_BYTES < g.len then
    match g.last8 with
    | .ptr a _ => (((h.get a).getD []).drop 4).take suffix_len
    | .buf _ => []
  else
    (Last8.getBuf g.last8).take suffix_len

/-- Models `Deref::deref` / `GermanStr::as_str`: the logical byte content.
The inline branch reads `len` bytes starting at the `prefix` field, which
in the `repr(C)` struct are the bytes of `prefix` followed by the inline
buffer. -/
def GermanStr.as_str (h : Heap) (g : GermanStr) : Bytes :=
  match g.heap_ptr with
  | some a => ((h.get a).getD []).take g.len
  | none => (g.pfx ++ Last8.getBuf g.last8).take g.len

/-- Models `impl PartialEq<GermanStr> for GermanStr`. -/
def GermanStr.beq (h : Heap) (a b : GermanStr) : Bool :=
  if !(a.pfx == b.pfx) then false
  else if a.len ≤ 4 && b.len ≤ 4 then true
  else if a.is_inlined && b.is_inlined then
    Last8.getBuf a.last8 == Last8.getBuf b.last8
  else
    a.suffix_bytes_slice h == b.suffix_bytes_slice h

/-- Byte-wise lexicographic comparison; agrees with Rust's `Ord` on both
`[u8; N]` arrays (equal lengths) and `&[u8]` slices (shorter ≺ longer). -/
def bytesCmp : Bytes → Bytes → Ordering
  | [], [] => .eq
  | [], _ :: _ => .lt
  | _ :: _, [] => .gt
  | x :: xs, y :: ys => (compare x y).then (bytesCmp xs ys)

/-- Models `impl Ord for GermanStr`. -/
def GermanStr.cmp (h : Heap) (a b : GermanStr) : Ordering :=
  (bytesCmp a.pfx b.pfx).then
    (if a.len ≤ 4 && b.len ≤ 4 then .eq
     else if a.is_inlined && b.is_inlined then
       bytesCmp (Last8.getBuf a.last8) (Last8.getBuf b.last8)
     else
       bytesCmp (a.suffix_bytes_slice h) (b.suffix_bytes_slice h))

/-- Models `impl Clone for GermanStr`: deep copy through a fresh owned
allocation for heap values, verbatim copy for inline values. -/
def GermanStr.clone (h : Heap) (g : GermanStr) : GermanStr × Heap :=
  match g.heap_ptr with
  | some a =>
    let contents := ((h.get a).getD []).take g.len
    let p := h.alloc contents
    ({ len := g.len, pfx := g.pfx, last8 := .ptr p.2 OWNED_PTR }, p.1)
  | none => (g, h)

/-- Models `impl Default for GermanStr`: the empty string, all zero bytes. -/
def GermanStr.default : GermanStr :=
  { len := 0, pfx := List.replicate 4 0, last8 := .buf (List.replicate 8 0) }

/-- Models `impl PartialEq<str> for GermanStr` (and the symmetric and
`String` impls, which are textually identical): cross-type equality
against a plain byte string through the same split. -/
def GermanStr.eqStr (h : Heap) (g : GermanStr) (other : Bytes) : Bool :=
  (g.pfx == strPfx other) && (g.suffix_bytes_slice h == strSuffix other)

/-- Models the struct `Writer` (the incremental builder). The `inline`
field is called `inl`. -/
structure Writer where
  len : Nat
  inl : Bytes
  heap : Bytes
deriving DecidableEq, Repr

/-- Models `Writer::new`. -/
def Writer.new : Writer :=
  { len := 0, inl := List.replicate MAX_INLINE_BYTES 0, heap := [] }

/-- Models `Writer::push_str`. On error the Rust writer is left with a
corrupted `len`; the model simply discards it. -/
def Writer.push_str (w : Writer) (s : Bytes) : Except InitError Writer :=
  let old_len := w.len
  let len' := w.len + s.length
  if MAX_LEN < len' then .error .TooLong
  else if len' ≤ MAX_INLINE_BYTES then
    .ok { w with len := len', inl := w.inl.take old_len ++ s ++ w.inl.drop len' }
  else if old_len ≤ MAX_INLINE_BYTES then
    .ok { w with len := len', heap := w.heap ++ w.inl.take old_len ++ s }
  else
    .ok { w with len := len', heap := w.heap ++ s }

/-- Feeding a list of fragments to the builder in order, as the
`build_writer` test does. -/
def Writer.pushAll (w : Writer) (fs : List Bytes) : Except InitError Writer :=
  match fs with
  | [] => .ok w
  | s :: rest =>
    match w.push_str s with
    | .error e => .error e
    | .ok w' => Writer.pushAll w' rest

/-- Models `impl From<Writer> for GermanStr`. Leaking the heap `String` is
modelled as a fresh allocation holding its bytes. -/
def GermanStr.fromWriter (h : Heap) (w : Writer) : GermanStr × Heap :=
  if w.len ≤ MAX_INLINE_BYTES then
    ({ len := w.len % 2 ^ 32
       pfx := w.inl.take 4
       last8 := .buf ((w.inl.drop 4).take 8) }, h)
  else
    let p := h.alloc w.heap
    ({ len := w.len % 2 ^ 32
       pfx := strPfx w.heap
       last8 := .ptr p.2 OWNED_PTR }, p.1)

/-- Representation predicate: `g` represents the byte string `t` in heap
`hh`, exactly as `GermanStr::new` lays it out (owned pointer in the heap
case). -/
def repOk (hh : Heap) (g : GermanStr) (t : Bytes) : Prop :=
  g.len = t.length ∧ g.pfx = strPfx t ∧ t.length < 2 ^ 32 ∧
  ((t.length ≤ MAX_INLINE_BYTES ∧ g.last8 = .buf (inlineBuf t)) ∨
   (MAX_INLINE_BYTES < t.length ∧
     ∃ a, g.last8 = .ptr a OWNED_PTR ∧ hh.get a = some t))

/-- Heap well-formedness: every live address is below the fresh counter. -/
def Heap.wfb (h : Heap) : Bool :=
  h.live.all (fun p => p.1 < h.next)

/-- Representation invariant established by the construction paths:
a 4-byte head, a length below `2 ^ 32`, and a union arm matching the
length, with a live buffer of exactly `len` bytes in the heap case. -/
def GermanStr.wfb (h : Heap) (g : GermanStr) : Bool :=
  (g.pfx.length == 4) && decide (g.len < 2 ^ 32) &&
  (match g.last8 with
   | .ptr a t =>
     decide (MAX_INLINE_BYTES < g.len) && decide (t < 2) &&
       ((h.get a).map List.length == some g.len)
   | .buf b => decide (g.len ≤ MAX_INLINE_BYTES) && (b.length == 8))

/-! Basic lemmas about the building blocks. -/

theorem then_eq_eq (o p : Ordering) :
    o.then p = Ordering.eq ↔ o = Ordering.eq ∧ p = Ordering.eq := by
  cases o <;> simp [Ordering.then]

theorem bytesCmp_eq_iff (x : Bytes) : ∀ y, bytesCmp x y = Ordering.eq ↔ x = y := by
  induction x with
  | nil => intro y; cases y <;> simp [bytesCmp]
  | cons a x ih =>
    intro y
    cases y with
    | nil => simp [bytesCmp]
    | cons b y => simp [bytesCmp, then_eq_eq, compare_eq_iff_eq, ih]

theorem beq_refl (h : Heap) (g : GermanStr) : GermanStr.beq h g g = true := by
  unfold GermanStr.beq
  by_cases h4 : g.len ≤ 4 <;> by_cases hi : g.is_inlined <;> simp [h4, hi]

theorem Heap.get_alloc_self (h : Heap) (c : Bytes) :
    ((h.alloc c).1).get h.next = some c := by
  simp [Heap.alloc, Heap.get]

theorem Heap.get_alloc_ne (h : Heap) (c : Bytes) (a : Nat) (ha : a ≠ h.next) :
    ((h.alloc c).1).get a = h.get a := by
  simp only [Heap.alloc, Heap.get, List.find?]
  rw [show ((h.next == a) = false) from beq_eq_false_iff_ne.mpr (Ne.symm ha)]

theorem new_ok_inline (h : Heap) (t : Bytes) (h12 : t.length ≤ MAX_INLINE_BYTES) :
    GermanStr.new h t = .ok (GermanStr.new_inline t, h) := by
  have hMAX : ¬ MAX_LEN < t.length := by
    simp only [MAX_INLINE_BYTES] at h12; norm_num [MAX_LEN]; omega
  unfold GermanStr.new
  rw [if_neg hMAX, if_pos h12]

theorem new_ok_heap (h : Heap) (t : Bytes) (h12 : MAX_INLINE_BYTES < t.length)
    (hle : t.length ≤ MAX_LEN) :
    GermanStr.new h t =
      .ok ({ len := t.length % 2 ^ 32, pfx := strPfx t, last8 := .ptr h.next OWNED_PTR },
           { next := h.next + 1, live := (h.next, t) :: h.live }) := by
  have h63 : ¬ 2 ^ 63 - 1 < t.length := by norm_num [MAX_LEN] at hle; omega
  unfold GermanStr.new
  rw [if_neg (by omega), if_neg (by omega), if_neg h63]
  rfl

/-- C7: for every pair of `GermanStr` values `a` and `b` (and any heap),
`a == b` holds if and only if `a.cmp(&b)` returns `Equal`: the equality
relation and the ordering's `Equal` case coincide exactly. -/
theorem beq_iff_cmp_eq (h : Heap) (a b : GermanStr) :
    GermanStr.beq h a b = true ↔ GermanStr.cmp h a b = Ordering.eq := by
  unfold GermanStr.beq GermanStr.cmp
  by_cases hp : a.pfx = b.pfx
  · have hcp : bytesCmp a.pfx b.pfx = Ordering.eq := (bytesCmp_eq_iff _ _).mpr hp
    by_cases h4 : a.len ≤ 4 ∧ b.len ≤ 4
    · simp [hp, h4, hcp, then_eq_eq, bytesCmp_eq_iff]
    · by_cases hi : a.is_inlined = true ∧ b.is_inlined = true
      · simp [hp, h4, hi, hcp, then_eq_eq, bytesCmp_eq_iff]
      · simp [hp, h4, hi, hcp, then_eq_eq, bytesCmp_eq_iff]
  · have hcp : ¬ bytesCmp a.pfx b.pfx = Ordering.eq := by
      simp [bytesCmp_eq_iff, hp]
    simp [hp, then_eq_eq, hcp]

/-- C4: construction returns an error exactly when the input byte length
exceeds `MAX_LEN = 2 ^ 32` itself (length exactly `2 ^ 32` is accepted),
and the only error ever returned is `TooLong`; this covers the
`Layout::array` branch, which the source also maps to `TooLong`. -/
theorem new_too_long_iff (h : Heap) (s : Bytes) :
    ((∃ p, GermanStr.new h s = .ok p) ↔ s.length ≤ MAX_LEN) ∧
    (GermanStr.new h s = .error InitError.TooLong ↔ MAX_LEN < s.length) := by
  by_cases h1 : MAX_LEN < s.length
  · unfold GermanStr.new
    rw [if_pos h1]
    simp; omega
  · push_neg at h1
    by_cases h2 : s.length ≤ MAX_INLINE_BYTES
    · rw [new_ok_inline h s h2]
      simp; omega
    · rw [new_ok_heap h s (by omega) h1]
      simp; omega

/-! Lemmas about the ownership tag, drop and the shared-clone operation. -/

theorem drop_not_heap (h : Heap) (g : GermanStr) (hin : g.is_heap_allocated = false) :
    GermanStr.drop h g = h := by
  have : ¬ MAX_INLINE_BYTES < g.len := by
    simpa [GermanStr.is_heap_allocated] using hin
  simp [GermanStr.drop, GermanStr.heap_ptr, GermanStr.heap_ointer, this]

theorem drop_ptr_none (h : Heap) (g : GermanStr) (hp : g.heap_ptr = none) :
    GermanStr.drop h g = h := by
  simp [GermanStr.drop, hp]

theorem drop_shared (h : Heap) (g : GermanStr) (hsh : g.has_shared_buffer = true) :
    GermanStr.drop h g = h := by
  unfold GermanStr.drop
  cases hp : g.heap_ptr <;> simp [hsh]

theorem drop_owned (h : Heap) (g : GermanStr) (a : Nat)
    (hlast : g.last8 = Last8.ptr a OWNED_PTR) (hheap : g.is_heap_allocated = true) :
    GermanStr.drop h g = h.dealloc a := by
  have hlt : MAX_INLINE_BYTES < g.len := by
    simpa [GermanStr.is_heap_allocated] using hheap
  simp [GermanStr.drop, GermanStr.heap_ptr, GermanStr.heap_ointer,
    GermanStr.has_shared_buffer, hlast, hlt]

theorem stealBit_shared : stealBit SHARED_PTR = 1 := by
  norm_num [stealBit, SHARED_PTR]

theorem leaky_snd_eq_fst (g : GermanStr) :
    (g.leaky_shared_clone).2 = (g.leaky_shared_clone).1 := rfl

theorem leaky_of_not_heap (g : GermanStr) (hin : g.is_heap_allocated = false) :
    g.leaky_shared_clone = (g, g) := by
  simp [GermanStr.leaky_shared_clone, hin]

theorem leaky_of_heap (g : GermanStr) (a t : Nat)
    (hlast : g.last8 = Last8.ptr a t) (hheap : g.is_heap_allocated = true) :
    (g.leaky_shared_clone).1 =
      { len := g.len, pfx := g.pfx, last8 := Last8.ptr a (stealBit SHARED_PTR) } := by
  simp [GermanStr.leaky_shared_clone, hheap, hlast]

theorem has_shared_retag (g : GermanStr) (a : Nat) (hheap : MAX_INLINE_BYTES < g.len) :
    GermanStr.has_shared_buffer { len := g.len, pfx := g.pfx, last8 := Last8.ptr a 1 }
      = true := by
  simp [GermanStr.has_shared_buffer, GermanStr.heap_ointer, hheap, OWNED_PTR]

theorem has_shared_of_buf (g : GermanStr) (b : Bytes) (hb : g.last8 = Last8.buf b) :
    g.has_shared_buffer = false := by
  unfold GermanStr.has_shared_buffer GermanStr.heap_ointer
  by_cases hl : MAX_INLINE_BYTES < g.len <;> simp [hl, hb]

theorem has_shared_of_owned (g : GermanStr) (a : Nat)
    (hl : g.last8 = Last8.ptr a OWNED_PTR) :
    g.has_shared_buffer = false := by
  unfold GermanStr.has_shared_buffer GermanStr.heap_ointer
  by_cases hlt : MAX_INLINE_BYTES < g.len <;> simp [hlt, hl, OWNED_PTR]

/-- C6: `leaky_shared_clone` on a heap-allocated value flips only the
ownership bit of `self` to the shared tag (length, head bytes and address
unchanged), and returns a second handle identical to the updated `self`;
`has_shared_buffer` is true for both afterwards. On an inline value it
leaves `self` unchanged and returns a bit-identical copy. -/
theorem leaky_shared_clone_spec (g : GermanStr) :
    (g.is_heap_allocated = false → g.leaky_shared_clone = (g, g)) ∧
    (∀ a t, g.last8 = Last8.ptr a t → g.is_heap_allocated = true →
      (g.leaky_shared_clone).1 =
        { len := g.len, pfx := g.pfx, last8 := Last8.ptr a (stealBit SHARED_PTR) } ∧
      (g.leaky_shared_clone).2 = (g.leaky_shared_clone).1 ∧
      (g.leaky_shared_clone).1.has_shared_buffer = true ∧
      (g.leaky_shared_clone).2.has_shared_buffer = true) := by
  refine ⟨leaky_of_not_heap g, ?_⟩
  intro a t hlast hheap
  have hlt : MAX_INLINE_BYTES < g.len := by
    simpa [GermanStr.is_heap_allocated] using hheap
  have h1 := leaky_of_heap g a t hlast hheap
  have hsh : (g.leaky_shared_clone).1.has_shared_buffer = true := by
    rw [h1, stealBit_shared]; exact has_shared_retag g a hlt
  exact ⟨h1, leaky_snd_eq_fst g, hsh, by rw [leaky_snd_eq_fst g]; exact hsh⟩

/-- Witness for C6 at a concrete heap value and a concrete inline value. -/
theorem leaky_shared_clone_spec_witness :
    GermanStr.leaky_shared_clone { len := 20, pfx := [97, 97, 97, 97], last8 := .ptr 5 0 }
      = ({ len := 20, pfx := [97, 97, 97, 97], last8 := .ptr 5 1 },
         { len := 20, pfx := [97, 97, 97, 97], last8 := .ptr 5 1 }) ∧
    GermanStr.leaky_shared_clone { len := 3, pfx := [97, 98, 99, 0], last8 := .buf [0,0,0,0,0,0,0,0] }
      = ({ len := 3, pfx := [97, 98, 99, 0], last8 := .buf [0,0,0,0,0,0,0,0] },
         { len := 3, pfx := [97, 98, 99, 0], last8 := .buf [0,0,0,0,0,0,0,0] }) := by
  constructor
  · obtain ⟨h1, h2, -, -⟩ := (leaky_shared_clone_spec
      { len := 20, pfx := [97, 97, 97, 97], last8 := .ptr 5 0 }).2 5 0 rfl (by decide)
    rw [stealBit_shared] at h1
    exact Prod.ext_iff.mpr ⟨h1, h2.trans h1⟩
  · exact (leaky_shared_clone_spec _).1 (by decide)

/-- C3: destruction deallocates the heap buffer exactly for an owned heap
value; dropping an inline value or a shared heap value deallocates
nothing. After `leaky_shared_clone`, dropping both the updated original
and the returned alias deallocates nothing, and a single `free` call on
one alias deallocates the buffer (once, at its address). -/
theorem drop_free_spec (h : Heap) (g : GermanStr) :
    (g.is_heap_allocated = false → GermanStr.drop h g = h) ∧
    (g.has_shared_buffer = true → GermanStr.drop h g = h) ∧
    (∀ a, g.last8 = Last8.ptr a OWNED_PTR → g.is_heap_allocated = true →
      GermanStr.drop h g = h.dealloc a) ∧
    GermanStr.drop h (g.leaky_shared_clone).1 = h ∧
    GermanStr.drop h (g.leaky_shared_clone).2 = h ∧
    (∀ a t, g.last8 = Last8.ptr a t → g.is_heap_allocated = true →
      GermanStr.free h (g.leaky_shared_clone).2 = h.dealloc a) := by
  have hclone : GermanStr.drop h (g.leaky_shared_clone).1 = h := by
    cases hb : g.is_heap_allocated with
    | false => rw [leaky_of_not_heap g hb]; exact drop_not_heap h g hb
    | true =>
      cases hl : g.last8 with
      | ptr a t =>
        have hlt : MAX_INLINE_BYTES < g.len := by
          simpa [GermanStr.is_heap_allocated] using hb
        rw [leaky_of_heap g a t hl hb, stealBit_shared]
        exact drop_shared h _ (has_shared_retag g a hlt)
      | buf b =>
        have : (g.leaky_shared_clone).1 = g := by
          unfold GermanStr.leaky_shared_clone
          simp only [hb, if_true, hl]
          rw [← hl]
        rw [this]
        apply drop_ptr_none
        have hlt : MAX_INLINE_BYTES < g.len := by
          simpa [GermanStr.is_heap_allocated] using hb
        simp [GermanStr.heap_ptr, GermanStr.heap_ointer, hlt, hl]
  refine ⟨drop_not_heap h g, drop_shared h g, fun a ha hb => drop_owned h g a ha hb,
    hclone, by rw [leaky_snd_eq_fst g]; exact hclone, ?_⟩
  intro a t hlast hheap
  have hlt : MAX_INLINE_BYTES < g.len := by
    simpa [GermanStr.is_heap_allocated] using hheap
  rw [leaky_snd_eq_fst g, leaky_of_heap g a t hlast hheap]
  unfold GermanStr.free
  simp only [stealBit]
  exact drop_owned h _ a (by simp [OWNED_PTR]) (by simpa [GermanStr.is_heap_allocated] using hlt)

/-- Witness for C3: a 20-byte owned heap value; dropping it deallocates,
dropping both shared aliases is a no-op, and `free` on the returned alias
deallocates the buffer at address 0. -/
theorem drop_free_spec_witness :
    GermanStr.drop { next := 1, live := [(0, List.replicate 20 97)] }
        { len := 20, pfx := [97, 97, 97, 97], last8 := .ptr 0 0 }
      = Heap.dealloc { next := 1, live := [(0, List.replicate 20 97)] } 0 ∧
    GermanStr.drop { next := 1, live := [(0, List.replicate 20 97)] }
        ((GermanStr.leaky_shared_clone
          { len := 20, pfx := [97, 97, 97, 97], last8 := .ptr 0 0 }).1)
      = { next := 1, live := [(0, List.replicate 20 97)] } ∧
    GermanStr.free { next := 1, live := [(0, List.replicate 20 97)] }
        ((GermanStr.leaky_shared_clone
          { len := 20, pfx := [97, 97, 97, 97], last8 := .ptr 0 0 }).2)
      = Heap.dealloc { next := 1, live := [(0, List.replicate 20 97)] } 0 :=
  ⟨(drop_free_spec _ _).2.2.1 0 rfl (by decide),
   (drop_free_spec _ _).2.2.2.1,
   (drop_free_spec _ _).2.2.2.2.2 0 0 rfl (by decide)⟩

/-- C10: every construction path — `new` (both variants), `new_inline`,
`default`, `clone`, and finalizing the builder — yields a value with
`has_shared_buffer() == false`; the shared tag only ever comes from an
explicit `leaky_shared_clone`. -/
theorem construction_not_shared (h : Heap) (s : Bytes) (g : GermanStr) (h' : Heap)
    (w : Writer) :
    (GermanStr.new h s = .ok (g, h') → g.has_shared_buffer = false) ∧
    (GermanStr.new_inline s).has_shared_buffer = false ∧
    GermanStr.default.has_shared_buffer = false ∧
    (GermanStr.clone h g).1.has_shared_buffer = false ∧
    (GermanStr.fromWriter h w).1.has_shared_buffer = false := by
  refine ⟨?_, has_shared_of_buf _ _ rfl, has_shared_of_buf _ _ rfl, ?_, ?_⟩
  · intro he
    by_cases h1 : MAX_LEN < s.length
    · exfalso
      unfold GermanStr.new at he
      rw [if_pos h1] at he
      exact Except.noConfusion he
    · by_cases h2 : s.length ≤ MAX_INLINE_BYTES
      · rw [new_ok_inline h s h2] at he
        obtain ⟨rfl, -⟩ : GermanStr.new_inline s = g ∧ h = h' := by
          injection he with he'; exact ⟨congrArg Prod.fst he', congrArg Prod.snd he'⟩
        exact has_shared_of_buf _ _ rfl
      · rw [new_ok_heap h s (by omega) (by omega)] at he
        obtain ⟨rfl, -⟩ :
            ({ len := s.length % 2 ^ 32, pfx := strPfx s,
               last8 := .ptr h.next OWNED_PTR } : GermanStr) = g ∧ _ = h' := by
          injection he with he'; exact ⟨congrArg Prod.fst he', congrArg Prod.snd he'⟩
        exact has_shared_of_owned _ h.next rfl
  · unfold GermanStr.clone
    cases hp : g.heap_ptr with
    | none =>
      simp only
      have : g.heap_ointer = none := by
        by_contra hc
        cases ho : g.heap_ointer with
        | none => exact hc ho
        | some p => rw [show g.heap_ptr = some p.1 by simp [GermanStr.heap_ptr, ho]] at hp
                    exact Option.noConfusion hp
      simp [GermanStr.has_shared_buffer, this]
    | some a => exact has_shared_of_owned _ (h.alloc (((h.get a).getD []).take g.len)).2 rfl
  · unfold GermanStr.fromWriter
    by_cases hw : w.len ≤ MAX_INLINE_BYTES
    · rw [if_pos hw]; exact has_shared_of_buf _ _ rfl
    · rw [if_neg hw]; exact has_shared_of_owned _ (h.alloc w.heap).2 rfl

/-- Witness for C10: the construction conjunct applied to the concrete
input "abc" on the empty heap. -/
theorem construction_not_shared_witness :
    (GermanStr.new_inline [97, 98, 99]).has_shared_buffer = false ∧
    GermanStr.default.has_shared_buffer = false :=
  ⟨(construction_not_shared Heap.empty [97, 98, 99] (GermanStr.new_inline [97, 98, 99])
      Heap.empty Writer.new).1 (new_ok_inline Heap.empty [97, 98, 99] (by decide)),
   (construction_not_shared Heap.empty [] GermanStr.default Heap.empty Writer.new).2.2.1⟩

/-- C2, evaluated at the failing input: the empty string and the one-byte
string `"\0"` both construct successfully, the constructed values compare
equal (`eq` returns true, `cmp` returns `Equal`), yet the source strings
are different and byte-wise comparison orders them strictly. -/
theorem eq_cmp_disagree_on_nul :
    GermanStr.new Heap.empty [] = .ok (GermanStr.new_inline [], Heap.empty) ∧
    GermanStr.new Heap.empty [0] = .ok (GermanStr.new_inline [0], Heap.empty) ∧
    GermanStr.beq Heap.empty (GermanStr.new_inline []) (GermanStr.new_inline [0]) = true ∧
    GermanStr.cmp Heap.empty (GermanStr.new_inline []) (GermanStr.new_inline [0])
      = Ordering.eq ∧
    ([] : Bytes) ≠ [0] ∧
    bytesCmp [] [0] = Ordering.lt := by
  refine ⟨new_ok_inline _ _ (by decide), new_ok_inline _ _ (by decide), ?_, ?_, ?_, ?_⟩
    <;> decide

/-! Round-trip of construction and dereferencing. -/

theorem inline_concat (s : Bytes) (hs : s.length ≤ 12) :
    strPfx s ++ inlineBuf s = s ++ List.replicate (12 - s.length) 0 := by
  unfold strPfx inlineBuf
  by_cases h4 : s.length ≤ 4
  · rw [List.take_of_length_le h4, List.drop_eq_nil_of_le h4]
    have h0 : s.length - 4 = 0 := by omega
    rw [h0]
    simp only [List.take_nil, List.nil_append, Nat.sub_zero]
    rw [List.append_assoc, ← List.replicate_add]
    have : 4 - s.length + 8 = 12 - s.length := by omega
    rw [this]
  · push_neg at h4
    have h40 : 4 - s.length = 0 := by omega
    rw [h40]
    have hd : (s.drop 4).length ≤ 8 := by simp; omega
    rw [List.take_of_length_le hd]
    simp only [List.replicate_zero, List.append_nil]
    rw [← List.append_assoc, List.take_append_drop]
    have : 8 - (s.length - 4) = 12 - s.length := by omega
    rw [this]

theorem as_str_new_inline (h : Heap) (s : Bytes) (hs : s.length ≤ 12) :
    GermanStr.as_str h (GermanStr.new_inline s) = s := by
  have hmod : s.length % 2 ^ 32 = s.length := Nat.mod_eq_of_lt (by norm_num; omega)
  show GermanStr.as_str h
    { len := s.length % 2 ^ 32, pfx := strPfx s, last8 := .buf (inlineBuf s) } = s
  rw [hmod]
  have hp : GermanStr.heap_ptr
      { len := s.length, pfx := strPfx s, last8 := .buf (inlineBuf s) } = none := by
    simp [GermanStr.heap_ptr, GermanStr.heap_ointer, MAX_INLINE_BYTES, Nat.not_lt.mpr hs]
  unfold GermanStr.as_str
  simp only [hp, Last8.getBuf]
  rw [inline_concat s hs, List.take_append_eq_append_take, List.take_length,
    Nat.sub_self, List.take_zero, List.append_nil]

/-- C1 (amended): for every string whose byte length is at most
`2 ^ 32 - 1`, `GermanStr::new` returns `Ok`, and dereferencing the result
yields exactly the input string. -/
theorem new_roundtrip_lt_max (h : Heap) (s : Bytes) (hs : s.length < MAX_LEN) :
    ∃ g h', GermanStr.new h s = .ok (g, h') ∧ GermanStr.as_str h' g = s := by
  by_cases h12 : s.length ≤ MAX_INLINE_BYTES
  · exact ⟨_, _, new_ok_inline h s h12, as_str_new_inline h s
      (by simpa [MAX_INLINE_BYTES] using h12)⟩
  · push_neg at h12
    refine ⟨_, _, new_ok_heap h s h12 (le_of_lt hs), ?_⟩
    have h32 : s.length < 4294967296 := by norm_num [MAX_LEN] at hs; exact hs
    have h12n : 12 < s.length := by simpa [MAX_INLINE_BYTES] using h12
    have hmod : s.length % 2 ^ 32 = s.length := Nat.mod_eq_of_lt (by norm_num; omega)
    have hp : GermanStr.heap_ptr
        { len := s.length % 2 ^ 32, pfx := strPfx s, last8 := .ptr h.next OWNED_PTR }
        = some h.next := by
      simp [GermanStr.heap_ptr, GermanStr.heap_ointer, MAX_INLINE_BYTES]
      omega
    have hget : Heap.get { next := h.next + 1, live := (h.next, s) :: h.live } h.next
        = some s := by
      simp [Heap.get]
    unfold GermanStr.as_str
    simp only [hp]
    simp only [hget, Option.getD_some, hmod]
    exact List.take_of_length_le (le_refl _)

/-- Witness for C1 (amended) at a concrete 29-byte heap-allocated string. -/
theorem new_roundtrip_lt_max_witness :
    (List.replicate 29 97).length < MAX_LEN ∧
    ∃ g h', GermanStr.new Heap.empty (List.replicate 29 97) = .ok (g, h') ∧
      GermanStr.as_str h' g = List.replicate 29 97 :=
  ⟨by norm_num [MAX_LEN], new_roundtrip_lt_max Heap.empty _ (by norm_num [MAX_LEN])⟩

/-- Counterexample to C1 as stated: at byte length exactly
`MAX_LEN = 2 ^ 32` construction still succeeds (the length check uses a
strict comparison), but the length stored in the `u32` field wraps to 0,
so dereferencing the result returns the empty string, not the input. -/
theorem new_max_len_roundtrip_cex :
    (List.replicate MAX_LEN 97).length ≤ MAX_LEN ∧
    GermanStr.new Heap.empty (List.replicate MAX_LEN 97) =
      .ok ({ len := 0, pfx := List.replicate 4 97, last8 := .ptr 0 0 },
           { next := 1, live := [(0, List.replicate MAX_LEN 97)] }) ∧
    GermanStr.as_str { next := 1, live := [(0, List.replicate MAX_LEN 97)] }
        { len := 0, pfx := List.replicate 4 97, last8 := .ptr 0 0 }
      ≠ List.replicate MAX_LEN 97 := by
  refine ⟨by simp, ?_, ?_⟩
  · rw [new_ok_heap Heap.empty _ (by norm_num [MAX_INLINE_BYTES, MAX_LEN]) (by simp)]
    simp only [List.length_replicate, strPfx, List.take_replicate, Heap.empty, OWNED_PTR]
    norm_num [MAX_LEN]
  · intro hcontra
    have hlen := congrArg List.length hcontra
    have : GermanStr.as_str { next := 1, live := [(0, List.replicate MAX_LEN 97)] }
        { len := 0, pfx := List.replicate 4 97, last8 := .ptr 0 0 } = [] := by
      simp [GermanStr.as_str, GermanStr.heap_ptr, GermanStr.heap_ointer, MAX_INLINE_BYTES]
    rw [this] at hlen
    norm_num [MAX_LEN] at hlen

/-! Clone: deep copy with a fresh owned buffer. -/

theorem heap_ptr_of_buf (g : GermanStr) (b : Bytes) (hl : g.last8 = Last8.buf b) :
    g.heap_ptr = none := by
  unfold GermanStr.heap_ptr GermanStr.heap_ointer
  by_cases hlt : MAX_INLINE_BYTES < g.len <;> simp [hlt, hl]

theorem heap_ptr_of_ptr (g : GermanStr) (a t : Nat) (hl : g.last8 = Last8.ptr a t)
    (hlt : MAX_INLINE_BYTES < g.len) :
    g.heap_ptr = some a := by
  simp [GermanStr.heap_ptr, GermanStr.heap_ointer, hl, hlt]

theorem wfb_ptr (h : Heap) (g : GermanStr) (a t : Nat) (hl : g.last8 = Last8.ptr a t)
    (hg : GermanStr.wfb h g = true) :
    MAX_INLINE_BYTES < g.len ∧ t < 2 ∧
      ∃ b, h.get a = some b ∧ b.length = g.len := by
  unfold GermanStr.wfb at hg
  rw [hl] at hg
  simp only [Bool.and_eq_true] at hg
  obtain ⟨⟨-, -⟩, ⟨hlt, ht⟩, hmapb⟩ := hg
  have hmap : (h.get a).map List.length = some g.len := eq_of_beq hmapb
  refine ⟨of_decide_eq_true hlt, of_decide_eq_true ht, ?_⟩
  cases hget : h.get a with
  | none => rw [hget] at hmap; simp at hmap
  | some b =>
    rw [hget] at hmap
    simp at hmap
    exact ⟨b, rfl, hmap⟩

theorem wfb_buf (h : Heap) (g : GermanStr) (b : Bytes) (hl : g.last8 = Last8.buf b)
    (hg : GermanStr.wfb h g = true) :
    g.len ≤ MAX_INLINE_BYTES := by
  unfold GermanStr.wfb at hg
  rw [hl] at hg
  simp only [Bool.and_eq_true, decide_eq_true_eq] at hg
  exact hg.2.1

theorem live_lt_next (h : Heap) (hh : h.wfb = true) (a : Nat) (c : Bytes)
    (hget : h.get a = some c) : a < h.next := by
  unfold Heap.wfb at hh
  rw [List.all_eq_true] at hh
  unfold Heap.get at hget
  cases hf : h.live.find? (fun p => p.1 == a) with
  | none => rw [hf] at hget; exact absurd hget (by simp)
  | some p =>
    have hmem := List.mem_of_find?_eq_some hf
    have hpred := List.find?_some hf
    simp only [beq_iff_eq] at hpred
    have := hh p hmem
    simp only [decide_eq_true_eq] at this
    omega

theorem suffix_of_ptr (hh : Heap) (g : GermanStr) (a t : Nat) (b : Bytes)
    (hl : g.last8 = Last8.ptr a t) (hlt : MAX_INLINE_BYTES < g.len)
    (hget : hh.get a = some b) :
    GermanStr.suffix_bytes_slice hh g = (b.drop 4).take (g.len - 4) := by
  unfold GermanStr.suffix_bytes_slice
  simp [hlt, hl, hget]

theorem as_str_of_ptr (hh : Heap) (g : GermanStr) (a t : Nat) (b : Bytes)
    (hl : g.last8 = Last8.ptr a t) (hlt : MAX_INLINE_BYTES < g.len)
    (hget : hh.get a = some b) (hblen : b.length = g.len) :
    GermanStr.as_str hh g = b := by
  unfold GermanStr.as_str
  simp only [heap_ptr_of_ptr g a t hl hlt, hget, Option.getD_some]
  exact List.take_of_length_le (le_of_eq hblen)

/-- C5: `clone` compares equal to the original and preserves the string
content; for a heap value (owned or shared alike) the clone carries a
freshly allocated buffer at a new address, distinct from the original's,
tagged `OWNED`; for an inline value the clone is a verbatim copy and the
heap is untouched. -/
theorem clone_spec (h : Heap) (g : GermanStr) (hh : Heap.wfb h = true)
    (hg : GermanStr.wfb h g = true) :
    (g.is_heap_allocated = false → GermanStr.clone h g = (g, h)) ∧
    GermanStr.beq (GermanStr.clone h g).2 (GermanStr.clone h g).1 g = true ∧
    GermanStr.as_str (GermanStr.clone h g).2 (GermanStr.clone h g).1
      = GermanStr.as_str h g ∧
    (∀ a t, g.last8 = Last8.ptr a t →
      (GermanStr.clone h g).1.last8 = Last8.ptr h.next OWNED_PTR ∧ a ≠ h.next ∧
      (GermanStr.clone h g).2 = (h.alloc (GermanStr.as_str h g)).1) := by
  cases hl : g.last8 with
  | buf b =>
    have hp : g.heap_ptr = none := heap_ptr_of_buf g b hl
    have hclone : GermanStr.clone h g = (g, h) := by
      unfold GermanStr.clone
      simp [hp]
    refine ⟨fun _ => hclone, ?_, ?_, ?_⟩
    · rw [hclone]; exact beq_refl h g
    · rw [hclone]
    · intro a t hat
      exact absurd hat (by simp)
  | ptr a t =>
    obtain ⟨hlt, ht2, b, hget, hblen⟩ := wfb_ptr h g a t hl hg
    have hlt' : 12 < g.len := by simpa [MAX_INLINE_BYTES] using hlt
    have ha : a < h.next := live_lt_next h hh a b hget
    have hp : g.heap_ptr = some a := heap_ptr_of_ptr g a t hl hlt
    have hcontents : ((h.get a).getD []).take g.len = b := by
      rw [hget, Option.getD_some]
      exact List.take_of_length_le (le_of_eq hblen)
    have hclone : GermanStr.clone h g =
        ({ len := g.len, pfx := g.pfx, last8 := .ptr h.next OWNED_PTR }, (h.alloc b).1) := by
      unfold GermanStr.clone
      simp only [hp, hcontents]
      simp [Heap.alloc]
    have hgets : Heap.get (h.alloc b).1 h.next = some b := Heap.get_alloc_self h b
    have hgeta : Heap.get (h.alloc b).1 a = some b := by
      rw [Heap.get_alloc_ne h b a (by omega)]; exact hget
    have hbeq : GermanStr.beq (GermanStr.clone h g).2 (GermanStr.clone h g).1 g = true := by
      rw [hclone]
      unfold GermanStr.beq
      have h4 : ¬ ((g.len ≤ 4) ∧ (g.len ≤ 4)) := by omega
      have hinl : GermanStr.is_inlined
          { len := g.len, pfx := g.pfx, last8 := Last8.ptr h.next OWNED_PTR } = false := by
        simp [GermanStr.is_inlined, GermanStr.is_heap_allocated, hlt]
      have hsuf1 : GermanStr.suffix_bytes_slice (h.alloc b).1
          { len := g.len, pfx := g.pfx, last8 := Last8.ptr h.next OWNED_PTR }
          = (b.drop 4).take (g.len - 4) :=
        suffix_of_ptr (h.alloc b).1 _ h.next OWNED_PTR b rfl hlt hgets
      have hsuf2 : GermanStr.suffix_bytes_slice (h.alloc b).1 g
          = (b.drop 4).take (g.len - 4) :=
        suffix_of_ptr (h.alloc b).1 g a t b hl hlt hgeta
      simp [h4, hinl, hsuf1, hsuf2]
    have hstr : GermanStr.as_str (GermanStr.clone h g).2 (GermanStr.clone h g).1
        = GermanStr.as_str h g := by
      rw [hclone]
      show GermanStr.as_str (h.alloc b).1
          { len := g.len, pfx := g.pfx, last8 := Last8.ptr h.next OWNED_PTR }
        = GermanStr.as_str h g
      rw [as_str_of_ptr (h.alloc b).1
          { len := g.len, pfx := g.pfx, last8 := Last8.ptr h.next OWNED_PTR }
          h.next OWNED_PTR b rfl hlt hgets hblen,
        as_str_of_ptr h g a t b hl hlt hget hblen]
    refine ⟨?_, hbeq, hstr, ?_⟩
    · intro hno
      rw [show g.is_heap_allocated = true by simp [GermanStr.is_heap_allocated, hlt]] at hno
      exact absurd hno (by simp)
    · intro a' t' hat
      injection hat with ha' ht'
      subst ha'
      refine ⟨?_, by omega, ?_⟩
      · rw [hclone]
      · rw [as_str_of_ptr h g a t b hl hlt hget hblen, hclone]

/-- Witness for C5: cloning a concrete 13-byte owned heap value on a
well-formed singleton heap. -/
theorem clone_spec_witness :
    GermanStr.beq
        (GermanStr.clone { next := 1, live := [(0, List.replicate 13 97)] }
          { len := 13, pfx := [97, 97, 97, 97], last8 := .ptr 0 0 }).2
        (GermanStr.clone { next := 1, live := [(0, List.replicate 13 97)] }
          { len := 13, pfx := [97, 97, 97, 97], last8 := .ptr 0 0 }).1
        { len := 13, pfx := [97, 97, 97, 97], last8 := .ptr 0 0 } = true ∧
    (GermanStr.clone { next := 1, live := [(0, List.replicate 13 97)] }
        { len := 13, pfx := [97, 97, 97, 97], last8 := .ptr 0 0 }).1.last8
      = Last8.ptr 1 OWNED_PTR ∧
    (0 : Nat) ≠ 1 := by
  obtain ⟨-, h2, -, h4⟩ := clone_spec { next := 1, live := [(0, List.replicate 13 97)] }
    { len := 13, pfx := [97, 97, 97, 97], last8 := .ptr 0 0 } (by decide) (by decide)
  obtain ⟨h41, h42, -⟩ := h4 0 0 rfl
  exact ⟨h2, h41, h42⟩

/-! Comparison machinery: zero-padding is injective on NUL-free strings. -/

theorem padEq_inj : ∀ (n : Nat) (t s : Bytes), t.length ≤ n → s.length ≤ n →
    (∀ x ∈ t, x ≠ 0) → (∀ x ∈ s, x ≠ 0) →
    t ++ List.replicate (n - t.length) 0 = s ++ List.replicate (n - s.length) 0 →
    t = s := by
  intro n
  induction n with
  | zero =>
    intro t s ht hs _ _ _
    have ht0 : t = [] := List.eq_nil_of_length_eq_zero (by omega)
    have hs0 : s = [] := List.eq_nil_of_length_eq_zero (by omega)
    rw [ht0, hs0]
  | succ n ih =>
    intro t s ht hs hnt hns heq
    cases t with
    | nil =>
      cases s with
      | nil => rfl
      | cons b s' =>
        exfalso
        rw [List.nil_append, List.length_nil, Nat.sub_zero,
          List.replicate_succ 0 n, List.cons_append] at heq
        injection heq with h1 _
        exact hns b (List.mem_cons_self b s') h1.symm
    | cons a t' =>
      cases s with
      | nil =>
        exfalso
        rw [List.nil_append, List.length_nil, Nat.sub_zero,
          List.replicate_succ 0 n, List.cons_append] at heq
        injection heq with h1 _
        exact hnt a (List.mem_cons_self a t') h1
      | cons b s' =>
        rw [List.cons_append, List.cons_append] at heq
        injection heq with h1 h2
        rw [List.length_cons, List.length_cons, Nat.succ_sub_succ, Nat.succ_sub_succ] at h2
        have ht' : t' = s' := ih t' s' (by simpa using ht) (by simpa using hs)
          (fun x hx => hnt x (List.mem_cons_of_mem a hx))
          (fun x hx => hns x (List.mem_cons_of_mem b hx)) h2
        rw [h1, ht']

theorem strPfx_of_le (t : Bytes) (h4 : t.length ≤ 4) :
    strPfx t = t ++ List.replicate (4 - t.length) 0 := by
  unfold strPfx
  rw [List.take_of_length_le h4]

theorem strPfx_of_ge (t : Bytes) (h4 : 4 ≤ t.length) :
    strPfx t = t.take 4 := by
  unfold strPfx
  rw [Nat.sub_eq_zero_of_le h4]
  simp

theorem split_inj (t s : Bytes) (hnt : ∀ x ∈ t, x ≠ 0) (hns : ∀ x ∈ s, x ≠ 0)
    (hp : strPfx t = strPfx s) (hd : t.drop 4 = s.drop 4) : t = s := by
  by_cases h4 : t.length ≤ 4
  · have htnil : t.drop 4 = [] := List.drop_eq_nil_of_le h4
    have hsnil : s.drop 4 = [] := by rw [← hd]; exact htnil
    have hs4 : s.length ≤ 4 := (List.drop_eq_nil_iff.mp hsnil)
    apply padEq_inj 4 t s h4 hs4 hnt hns
    rw [← strPfx_of_le t h4, ← strPfx_of_le s hs4]
    exact hp
  · push_neg at h4
    have hs4 : 4 ≤ s.length := by
      by_contra hc
      push_neg at hc
      have hsnil : s.drop 4 = [] := List.drop_eq_nil_of_le (by omega)
      rw [hsnil] at hd
      have := List.drop_eq_nil_iff.mp hd
      omega
    have heads : t.take 4 = s.take 4 := by
      rw [← strPfx_of_ge t (by omega), ← strPfx_of_ge s hs4]
      exact hp
    calc t = t.take 4 ++ t.drop 4 := (List.take_append_drop 4 t).symm
      _ = s.take 4 ++ s.drop 4 := by rw [heads, hd]
      _ = s := List.take_append_drop 4 s

theorem inlineBuf_pad (t : Bytes) (h12 : t.length ≤ 12) :
    inlineBuf t = t.drop 4 ++ List.replicate (8 - (t.drop 4).length) 0 := by
  unfold inlineBuf
  rw [List.take_of_length_le (by simp; omega)]
  simp

theorem repOk_new_inline (hh : Heap) (t : Bytes) (h12 : t.length ≤ MAX_INLINE_BYTES) :
    repOk hh (GermanStr.new_inline t) t := by
  have h12' : t.length ≤ 12 := by simpa [MAX_INLINE_BYTES] using h12
  exact ⟨Nat.mod_eq_of_lt (by norm_num; omega), rfl, by norm_num; omega,
    Or.inl ⟨h12, rfl⟩⟩

theorem repOk_heap (hh : Heap) (t : Bytes) (a : Nat) (h12 : MAX_INLINE_BYTES < t.length)
    (h32 : t.length < 2 ^ 32) (hget : hh.get a = some t) :
    repOk hh { len := t.length % 2 ^ 32, pfx := strPfx t, last8 := .ptr a OWNED_PTR } t :=
  ⟨Nat.mod_eq_of_lt h32, rfl, h32, Or.inr ⟨h12, a, rfl, hget⟩⟩

theorem suffix_of_repOk (hh : Heap) (g : GermanStr) (t : Bytes) (hr : repOk hh g t) :
    GermanStr.suffix_bytes_slice hh g = t.drop 4 := by
  obtain ⟨hlen, hpfx, h32, hcase⟩ := hr
  cases hcase with
  | inl hc =>
    obtain ⟨h12, hl⟩ := hc
    have h12' : t.length ≤ 12 := by simpa [MAX_INLINE_BYTES] using h12
    unfold GermanStr.suffix_bytes_slice
    rw [if_neg (by rw [hlen]; simpa [MAX_INLINE_BYTES] using not_lt.mpr h12')]
    rw [hl]
    show (inlineBuf t).take (g.len - 4) = t.drop 4
    rw [inlineBuf_pad t h12', hlen, List.take_append_eq_append_take,
      List.take_of_length_le (by simp)]
    simp
  | inr hc =>
    obtain ⟨h12, a, hl, hget⟩ := hc
    rw [suffix_of_ptr hh g a OWNED_PTR t hl (by rw [hlen]; exact h12) hget, hlen]
    exact List.take_of_length_le (by simp)

theorem repOk_buf (hh : Heap) (g : GermanStr) (t : Bytes) (hr : repOk hh g t)
    (h12 : t.length ≤ 12) : g.last8 = Last8.buf (inlineBuf t) := by
  obtain ⟨-, -, -, hcase⟩ := hr
  cases hcase with
  | inl hc => exact hc.2
  | inr hc =>
    exfalso
    have := hc.1
    simp [MAX_INLINE_BYTES] at this
    omega

theorem beq_of_repOk (hh : Heap) (g₁ g₂ : GermanStr) (t s : Bytes)
    (r₁ : repOk hh g₁ t) (r₂ : repOk hh g₂ s)
    (hnt : ∀ x ∈ t, x ≠ 0) (hns : ∀ x ∈ s, x ≠ 0) :
    (GermanStr.beq hh g₁ g₂ = true ↔ t = s) := by
  have hlen1 := r₁.1
  have hpfx1 := r₁.2.1
  have h32t := r₁.2.2.1
  have hlen2 := r₂.1
  have hpfx2 := r₂.2.1
  have h32s := r₂.2.2.1
  unfold GermanStr.beq
  by_cases hp : strPfx t = strPfx s
  · by_cases h44 : g₁.len ≤ 4 ∧ g₂.len ≤ 4
    · have hd : t.drop 4 = s.drop 4 := by
        rw [List.drop_eq_nil_of_le (by omega : t.length ≤ 4),
          List.drop_eq_nil_of_le (by omega : s.length ≤ 4)]
      have hts := split_inj t s hnt hns hp hd
      simp [hpfx1, hpfx2, hp, h44, hts]
    · by_cases hi : g₁.is_inlined = true ∧ g₂.is_inlined = true
      · have h12t : t.length ≤ 12 := by
          have := hi.1
          simp [GermanStr.is_inlined, GermanStr.is_heap_allocated, MAX_INLINE_BYTES]
            at this
          omega
        have h12s : s.length ≤ 12 := by
          have := hi.2
          simp [GermanStr.is_inlined, GermanStr.is_heap_allocated, MAX_INLINE_BYTES]
            at this
          omega
        have hl1 := repOk_buf hh g₁ t r₁ h12t
        have hl2 := repOk_buf hh g₂ s r₂ h12s
        simp only [hpfx1, hpfx2, hp, h44, hi, hl1, hl2, Last8.getBuf, beq_self_eq_true,
          Bool.not_true, Bool.false_eq_true, if_false, if_true, and_self, if_pos,
          beq_iff_eq]
        rw [if_neg (by simpa using h44), if_pos (by simp [hi.1, hi.2])]
        simp only [beq_iff_eq]
        constructor
        · intro hbuf
          apply split_inj t s hnt hns hp
          apply padEq_inj 8 (t.drop 4) (s.drop 4) (by simp; omega) (by simp; omega)
            (fun x hx => hnt x (List.drop_subset 4 t hx))
            (fun x hx => hns x (List.drop_subset 4 s hx))
          rw [← inlineBuf_pad t h12t, ← inlineBuf_pad s h12s]
          exact hbuf
        · intro hts
          rw [hts]
      · have hs1 : GermanStr.suffix_bytes_slice hh g₁ = t.drop 4 :=
          suffix_of_repOk hh g₁ t r₁
        have hs2 : GermanStr.suffix_bytes_slice hh g₂ = s.drop 4 :=
          suffix_of_repOk hh g₂ s r₂
        rw [if_neg (by simp [hpfx1, hpfx2, hp]), if_neg (by simpa using h44),
          if_neg (by simpa using hi), hs1, hs2]
        simp only [beq_iff_eq]
        constructor
        · exact fun hd => split_inj t s hnt hns hp hd
        · intro hts
          rw [hts]
  · have hne : t ≠ s := fun hts => hp (by rw [hts])
    rw [if_pos (by simp [hpfx1, hpfx2, hp])]
    simp [hne]

theorem eqStr_of_repOk (hh : Heap) (g : GermanStr) (t s : Bytes)
    (r₁ : repOk hh g t) (hnt : ∀ x ∈ t, x ≠ 0) (hns : ∀ x ∈ s, x ≠ 0) :
    (GermanStr.eqStr hh g s = true ↔ t = s) := by
  have hpfx : g.pfx = strPfx t := r₁.2.1
  unfold GermanStr.eqStr
  rw [hpfx, suffix_of_repOk hh g t r₁]
  unfold strSuffix
  simp only [Bool.and_eq_true, beq_iff_eq]
  constructor
  · rintro ⟨hp, hd⟩
    exact split_inj t s hnt hns hp hd
  · intro hts
    rw [hts]
    exact ⟨rfl, rfl⟩

/-- C8 (amended): for `v` constructed by `new` from a string `t`, where
`t` and `s` contain no NUL byte and have byte length at most `2 ^ 32 - 1`,
the cross-type comparison `v == s` returns the same result as the
compact-to-compact comparison `v == GermanStr::new(s)`. -/
theorem eqStr_agrees_with_beq (h : Heap) (t s : Bytes)
    (hnt : ∀ x ∈ t, x ≠ 0) (hns : ∀ x ∈ s, x ≠ 0)
    (ht : t.length < MAX_LEN) (hs : s.length < MAX_LEN)
    (g₁ : GermanStr) (h₁ : Heap) (g₂ : GermanStr) (h₂ : Heap)
    (e₁ : GermanStr.new h t = .ok (g₁, h₁)) (e₂ : GermanStr.new h₁ s = .ok (g₂, h₂)) :
    GermanStr.eqStr h₂ g₁ s = GermanStr.beq h₂ g₁ g₂ := by
  have h32t : t.length < 2 ^ 32 := by simpa [MAX_LEN] using ht
  have h32s : s.length < 2 ^ 32 := by simpa [MAX_LEN] using hs
  have hreps : repOk h₂ g₁ t ∧ repOk h₂ g₂ s := by
    by_cases h12t : t.length ≤ MAX_INLINE_BYTES
    · rw [new_ok_inline h t h12t] at e₁
      injection e₁ with e₁'
      obtain ⟨rfl, rfl⟩ := Prod.mk.inj e₁'
      by_cases h12s : s.length ≤ MAX_INLINE_BYTES
      · rw [new_ok_inline h s h12s] at e₂
        injection e₂ with e₂'
        obtain ⟨rfl, rfl⟩ := Prod.mk.inj e₂'
        exact ⟨repOk_new_inline _ t h12t, repOk_new_inline _ s h12s⟩
      · rw [new_ok_heap h s (by omega) (le_of_lt hs)] at e₂
        injection e₂ with e₂'
        obtain ⟨rfl, rfl⟩ := Prod.mk.inj e₂'
        refine ⟨repOk_new_inline _ t h12t, repOk_heap _ s h.next (by omega) h32s ?_⟩
        exact Heap.get_alloc_self h s
    · rw [new_ok_heap h t (by omega) (le_of_lt ht)] at e₁
      injection e₁ with e₁'
      obtain ⟨rfl, rfl⟩ := Prod.mk.inj e₁'
      by_cases h12s : s.length ≤ MAX_INLINE_BYTES
      · rw [new_ok_inline _ s h12s] at e₂
        injection e₂ with e₂'
        obtain ⟨rfl, rfl⟩ := Prod.mk.inj e₂'
        refine ⟨repOk_heap _ t h.next (by omega) h32t ?_, repOk_new_inline _ s h12s⟩
        exact Heap.get_alloc_self h t
      · rw [new_ok_heap _ s (by omega) (le_of_lt hs)] at e₂
        injection e₂ with e₂'
        obtain ⟨rfl, rfl⟩ := Prod.mk.inj e₂'
        constructor
        · refine repOk_heap _ t h.next (by omega) h32t ?_
          have hne : h.next ≠ h.next + 1 := by omega
          show Heap.get ((Heap.alloc
            { next := h.next + 1, live := (h.next, t) :: h.live } s).1) h.next = some t
          rw [Heap.get_alloc_ne _ s h.next hne]
          exact Heap.get_alloc_self h t
        · refine repOk_heap _ s (h.next + 1) (by omega) h32s ?_
          exact Heap.get_alloc_self { next := h.next + 1, live := (h.next, t) :: h.live } s
  have i1 := eqStr_of_repOk h₂ g₁ t s hreps.1 hnt hns
  have i2 := beq_of_repOk h₂ g₁ g₂ t s hreps.1 hreps.2 hnt hns
  exact Bool.eq_iff_iff.mpr (i1.trans i2.symm)

/-- Witness for C8 (amended) at the concrete NUL-free inputs
`t = "aaaab"` and `s = "aaaabc"`, constructed on the empty heap. -/
theorem eqStr_agrees_with_beq_witness :
    GermanStr.eqStr Heap.empty (GermanStr.new_inline [97, 97, 97, 97, 98])
        [97, 97, 97, 97, 98, 99]
      = GermanStr.beq Heap.empty (GermanStr.new_inline [97, 97, 97, 97, 98])
        (GermanStr.new_inline [97, 97, 97, 97, 98, 99]) :=
  eqStr_agrees_with_beq Heap.empty [97, 97, 97, 97, 98] [97, 97, 97, 97, 98, 99]
    (by decide) (by decide) (by norm_num [MAX_LEN]) (by norm_num [MAX_LEN])
    (GermanStr.new_inline [97, 97, 97, 97, 98]) Heap.empty
    (GermanStr.new_inline [97, 97, 97, 97, 98, 99]) Heap.empty
    (new_ok_inline Heap.empty _ (by decide)) (new_ok_inline Heap.empty _ (by decide))

/-- Counterexample to C8 as stated: for `v = new("aaaab")` and the string
`s = "aaaab\0"`, the cross-type comparison `v == s` is false, but the
compact-to-compact comparison `v == new(s)` is true (the trailing NUL of
`s` is indistinguishable from the inline zero padding), so the two
comparisons disagree. -/
theorem eqStr_beq_disagree_cex :
    GermanStr.new Heap.empty [97, 97, 97, 97, 98] =
      .ok (GermanStr.new_inline [97, 97, 97, 97, 98], Heap.empty) ∧
    GermanStr.new Heap.empty [97, 97, 97, 97, 98, 0] =
      .ok (GermanStr.new_inline [97, 97, 97, 97, 98, 0], Heap.empty) ∧
    GermanStr.eqStr Heap.empty (GermanStr.new_inline [97, 97, 97, 97, 98])
        [97, 97, 97, 97, 98, 0]
      = false ∧
    GermanStr.beq Heap.empty (GermanStr.new_inline [97, 97, 97, 97, 98])
        (GermanStr.new_inline [97, 97, 97, 97, 98, 0])
      = true := by
  refine ⟨new_ok_inline _ _ (by decide), new_ok_inline _ _ (by decide), ?_, ?_⟩ <;> decide

/-! The incremental builder. -/

theorem take_pad_self (c : Bytes) (m : Nat) :
    (c ++ List.replicate m 0).take c.length = c := by
  rw [List.take_append_eq_append_take, List.take_length, Nat.sub_self, List.take_zero,
    List.append_nil]

theorem pad12_take4 (c : Bytes) (hc : c.length ≤ 12) :
    (c ++ List.replicate (12 - c.length) 0).take 4 = strPfx c := by
  rw [List.take_append_eq_append_take, List.take_replicate]
  unfold strPfx
  have : min (4 - c.length) (12 - c.length) = 4 - c.length := by omega
  rw [this]

theorem pad12_drop4take8 (c : Bytes) (hc : c.length ≤ 12) :
    ((c ++ List.replicate (12 - c.length) 0).drop 4).take 8 = inlineBuf c := by
  rw [List.drop_append_eq_append_drop, List.drop_replicate, List.take_append_eq_append_take,
    List.take_replicate]
  simp only [List.length_take, List.length_drop]
  unfold inlineBuf
  congr 1
  have : min (8 - (c.length - 4)) (12 - c.length - (4 - c.length)) = 8 - (c.length - 4) := by
    omega
  rw [this]

theorem fromWriter_inline (h : Heap) (w : Writer) (c : Bytes) (hw : w.len = c.length)
    (hc : c.length ≤ 12) (hi : w.inl = c ++ List.replicate (12 - c.length) 0) :
    GermanStr.fromWriter h w = (GermanStr.new_inline c, h) := by
  unfold GermanStr.fromWriter GermanStr.new_inline
  rw [if_pos (by rw [hw]; simpa [MAX_INLINE_BYTES] using hc)]
  rw [hw, hi, pad12_take4 c hc, pad12_drop4take8 c hc]

theorem fromWriter_heap (h : Heap) (w : Writer) (c : Bytes) (hw : w.len = c.length)
    (hc : 12 < c.length) (hh : w.heap = c) :
    GermanStr.fromWriter h w =
      ({ len := c.length % 2 ^ 32, pfx := strPfx c, last8 := .ptr h.next OWNED_PTR },
       { next := h.next + 1, live := (h.next, c) :: h.live }) := by
  unfold GermanStr.fromWriter
  rw [if_neg (by rw [hw]; simpa [MAX_INLINE_BYTES] using not_le.mpr hc)]
  rw [hw, hh]
  simp [Heap.alloc]

theorem push_str_ok (w : Writer) (c s : Bytes) (hlen : w.len = c.length)
    (hinl : c.length ≤ 12 → w.inl = c ++ List.replicate (12 - c.length) 0 ∧ w.heap = [])
    (hheap : 12 < c.length → w.heap = c)
    (hle : c.length + s.length ≤ MAX_LEN) :
    ∃ w', Writer.push_str w s = .ok w' ∧ w'.len = (c ++ s).length ∧
      ((c ++ s).length ≤ 12 →
        w'.inl = (c ++ s) ++ List.replicate (12 - (c ++ s).length) 0 ∧ w'.heap = []) ∧
      (12 < (c ++ s).length → w'.heap = c ++ s) := by
  have hnot : ¬ MAX_LEN < w.len + s.length := by rw [hlen]; omega
  have hcs : (c ++ s).length = c.length + s.length := List.length_append c s
  unfold Writer.push_str
  rw [if_neg hnot]
  by_cases h1 : w.len + s.length ≤ MAX_INLINE_BYTES
  · have h1' : c.length + s.length ≤ 12 := by
      rw [hlen] at h1
      simpa [MAX_INLINE_BYTES] using h1
    obtain ⟨hi, hh0⟩ := hinl (by omega)
    rw [if_pos h1]
    refine ⟨_, rfl, by simp [hlen], ?_, ?_⟩
    · intro _
      refine ⟨?_, hh0⟩
      show w.inl.take w.len ++ s ++ w.inl.drop (w.len + s.length)
        = (c ++ s) ++ List.replicate (12 - (c ++ s).length) 0
      rw [hi, hlen, take_pad_self]
      have hd : (c ++ List.replicate (12 - c.length) 0).drop (c.length + s.length)
          = List.replicate (12 - (c.length + s.length)) 0 := by
        rw [List.drop_append_eq_append_drop, List.drop_eq_nil_of_le (by omega),
          List.drop_replicate, List.nil_append]
        congr 1
        omega
      rw [hd, hcs, List.append_assoc]
    · intro hgt
      rw [hcs] at hgt
      omega
  · rw [if_neg h1]
    by_cases h2 : w.len ≤ MAX_INLINE_BYTES
    · have h2' : c.length ≤ 12 := by
        rw [hlen] at h2
        simpa [MAX_INLINE_BYTES] using h2
      obtain ⟨hi, hh0⟩ := hinl h2'
      rw [if_pos h2]
      refine ⟨_, rfl, by simp [hlen], ?_, ?_⟩
      · intro hle12
        exfalso
        rw [hcs] at hle12
        rw [hlen] at h1
        simp [MAX_INLINE_BYTES] at h1
        omega
      · intro _
        show w.heap ++ w.inl.take w.len ++ s = c ++ s
        rw [hh0, hi, hlen, take_pad_self, List.nil_append]
    · have h2' : 12 < c.length := by
        rw [hlen] at h2
        simp [MAX_INLINE_BYTES] at h2
        omega
      rw [if_neg h2]
      refine ⟨_, rfl, by simp [hlen], ?_, ?_⟩
      · intro hle12
        exfalso
        rw [hcs] at hle12
        omega
      · intro _
        show w.heap ++ s = c ++ s
        rw [hheap h2']

theorem pushAll_ok : ∀ (fs : List Bytes) (c : Bytes) (w : Writer),
    w.len = c.length →
    (c.length ≤ 12 → w.inl = c ++ List.replicate (12 - c.length) 0 ∧ w.heap = []) →
    (12 < c.length → w.heap = c) →
    c.length + (fs.map List.length).sum ≤ MAX_LEN →
    ∃ w', Writer.pushAll w fs = .ok w' ∧ w'.len = (c ++ fs.flatten).length ∧
      ((c ++ fs.flatten).length ≤ 12 →
        w'.inl = (c ++ fs.flatten) ++ List.replicate (12 - (c ++ fs.flatten).length) 0 ∧
        w'.heap = []) ∧
      (12 < (c ++ fs.flatten).length → w'.heap = c ++ fs.flatten) := by
  intro fs
  induction fs with
  | nil =>
    intro c w h1 h2 h3 _
    exact ⟨w, rfl, by simpa using h1, by simpa using h2, by simpa using h3⟩
  | cons f fs ih =>
    intro c w h1 h2 h3 hle
    simp only [List.map_cons, List.sum_cons] at hle
    obtain ⟨w', hpush, hl', hi', hh'⟩ := push_str_ok w c f h1 h2 h3 (by omega)
    obtain ⟨w'', hall, hl'', hi'', hh''⟩ := ih (c ++ f) w' hl' hi' hh'
      (by rw [List.length_append]; omega)
    have hstep : Writer.pushAll w (f :: fs) = Writer.pushAll w' fs := by
      show (match w.push_str f with
        | .error e => .error e
        | .ok w2 => Writer.pushAll w2 fs) = Writer.pushAll w' fs
      rw [hpush]
    exact ⟨w'', by rw [hstep]; exact hall,
      by simpa [List.flatten_cons, List.append_assoc] using hl'',
      by simpa [List.flatten_cons, List.append_assoc] using hi'',
      by simpa [List.flatten_cons, List.append_assoc] using hh''⟩

/-- C9: feeding any sequence of fragments whose total byte length is
representable (≤ `MAX_LEN`) to the builder in order succeeds; the
fragments stay in the inline buffer while the running total is at most 12
bytes and live in the heap string once it exceeds 12; and finalizing the
builder produces exactly the value (and heap effect) of `GermanStr::new`
on the concatenation of the fragments. -/
theorem writer_concat_law (h : Heap) (fs : List Bytes)
    (hle : (fs.map List.length).sum ≤ MAX_LEN) :
    ∃ w, Writer.pushAll Writer.new fs = .ok w ∧
      w.len = fs.flatten.length ∧
      (fs.flatten.length ≤ MAX_INLINE_BYTES → w.heap = []) ∧
      (MAX_INLINE_BYTES < fs.flatten.length → w.heap = fs.flatten) ∧
      GermanStr.new h fs.flatten = Except.ok (GermanStr.fromWriter h w) := by
  obtain ⟨w, hall, hlen, hinl, hheap⟩ := pushAll_ok fs [] Writer.new rfl
    (fun _ => ⟨rfl, rfl⟩) (fun hc => absurd hc (by simp)) (by simpa using hle)
  simp only [List.nil_append] at hlen hinl hheap
  have hsum : fs.flatten.length ≤ MAX_LEN := by
    rw [List.length_flatten]; exact hle
  refine ⟨w, hall, hlen, ?_, ?_, ?_⟩
  · intro hc
    exact (hinl (by simpa [MAX_INLINE_BYTES] using hc)).2
  · intro hc
    exact hheap (by simpa [MAX_INLINE_BYTES] using hc)
  · by_cases h12 : fs.flatten.length ≤ 12
    · obtain ⟨hi, -⟩ := hinl h12
      rw [new_ok_inline h fs.flatten (by simpa [MAX_INLINE_BYTES] using h12),
        fromWriter_inline h w fs.flatten hlen h12 hi]
    · push_neg at h12
      rw [new_ok_heap h fs.flatten (by simpa [MAX_INLINE_BYTES] using h12) hsum,
        fromWriter_heap h w fs.flatten hlen h12 (hheap (by simpa [MAX_INLINE_BYTES] using h12))]

/-- Witness for C9 at the spec's concrete scenario: fragments
`["ab", "cdefghijkl", "mno"]` (lengths 2, 10, 3), which promote to the
heap and finalize to `new("abcdefghijklmno")`. -/
theorem writer_concat_law_witness :
    (([[97, 98], [99, 100, 101, 102, 103, 104, 105, 106, 107, 108],
        [109, 110, 111]] : List Bytes).map List.length).sum ≤ MAX_LEN ∧
    ∃ w, Writer.pushAll Writer.new
        [[97, 98], [99, 100, 101, 102, 103, 104, 105, 106, 107, 108], [109, 110, 111]]
        = .ok w ∧
      w.len = ([[97, 98], [99, 100, 101, 102, 103, 104, 105, 106, 107, 108],
        [109, 110, 111]] : List Bytes).flatten.length ∧
      (([[97, 98], [99, 100, 101, 102, 103, 104, 105, 106, 107, 108],
          [109, 110, 111]] : List Bytes).flatten.length ≤ MAX_INLINE_BYTES →
        w.heap = []) ∧
      (MAX_INLINE_BYTES < ([[97, 98], [99, 100, 101, 102, 103, 104, 105, 106, 107, 108],
          [109, 110, 111]] : List Bytes).flatten.length →
        w.heap = ([[97, 98], [99, 100, 101, 102, 103, 104, 105, 106, 107, 108],
          [109, 110, 111]] : List Bytes).flatten) ∧
      GermanStr.new Heap.empty ([[97, 98], [99, 100, 101, 102, 103, 104, 105, 106, 107, 108],
          [109, 110, 111]] : List Bytes).flatten
        = Except.ok (GermanStr.fromWriter Heap.empty w) :=
  ⟨by norm_num [MAX_LEN], writer_concat_law Heap.empty _ (by norm_num [MAX_LEN])⟩

end GermanStrModel
